import Mathlib

/-!
Verification of the fixture-to-test-source compiler and result analyzer
(`scripts/generate_tests.py`, `scripts/generate_spec_tests.py`,
`scripts/analyze_test_results.py`).

Python strings are embedded as lists of characters (`Str`); filesystem
paths as lists of path segments (`Path`).  Python's `str.isalnum`,
`str.isdigit` and the regex class `\s` are embedded through Lean's
ASCII character predicates, which agree with Python on the ASCII inputs
these scripts process.
-/

set_option maxRecDepth 4000

/-- A Python string, embedded as its list of characters. -/
abbrev Str := List Char

/-- Convert a Lean string literal to the `Str` embedding. -/
def str (s : String) : Str := s.data

/-- `s.endsWith suf` on the character-list embedding. -/
def endsWithS (suf s : Str) : Bool := suf.reverse.isPrefixOf s.reverse

/-- A filesystem path, as its list of segments (`pathlib.PurePath.parts`). -/
abbrev FPath := List Str

/-- Induction principle matching the two-element look-ahead recursions below. -/
theorem twoStepInduction {P : List Char → Prop} (h0 : P []) (h1 : ∀ c, P [c])
    (h2 : ∀ c1 c2 rest, P rest → P (c2 :: rest) → P (c1 :: c2 :: rest)) :
    ∀ s, P s := by
  have key : ∀ n s, List.length s ≤ n → P s := by
    intro n
    induction n with
    | zero =>
      intro s hs
      cases s with
      | nil => exact h0
      | cons c rest => simp at hs
    | succ n ih =>
      intro s hs
      match s with
      | [] => exact h0
      | [c] => exact h1 c
      | c1 :: c2 :: rest =>
        refine h2 c1 c2 rest (ih rest ?_) (ih (c2 :: rest) ?_)
        · simp at hs; omega
        · simp at hs ⊢; omega
  exact fun s => key s.length s le_rfl

/-! ## Identifier Sanitizer

`sanitize_test_name` exists in two variants:
the richer one in `generate_tests.py` (extra separators, collapsing of
consecutive underscores) and the simpler one in `generate_spec_tests.py`. -/

/-- `name.replace(a, "_")` for a single-character pattern `a`. -/
def replaceChar (a : Char) (s : Str) : Str :=
  s.map (fun c => if c = a then '_' else c)

/-- `name.replace("::", "_")`: left-to-right, non-overlapping. -/
def replaceColons : Str → Str
  | [] => []
  | [c] => [c]
  | c1 :: c2 :: rest =>
    if c1 = ':' ∧ c2 = ':' then '_' :: replaceColons rest
    else c1 :: replaceColons (c2 :: rest)

/-- The generator expression `c if c.isalnum() or c == "_" else "_"`. -/
def keepClean (c : Char) : Char :=
  if c.isAlphanum || c = '_' then c else '_'

/-- One pass of `sanitized.replace("__", "_")`: left-to-right, non-overlapping. -/
def replaceUU : Str → Str
  | [] => []
  | [c] => [c]
  | c1 :: c2 :: rest =>
    if c1 = '_' ∧ c2 = '_' then '_' :: replaceUU rest
    else c1 :: replaceUU (c2 :: rest)

/-- The test `"__" in sanitized`. -/
def hasUU : Str → Bool
  | [] => false
  | [_] => false
  | c1 :: c2 :: rest => (decide (c1 = '_') && decide (c2 = '_')) || hasUU (c2 :: rest)

/-- The loop `while "__" in sanitized: sanitized = sanitized.replace("__", "_")`.
Each iteration strictly shrinks the string, so fuel equal to the string's
length suffices to reach the loop's fixpoint. -/
def collapse : Nat → Str → Str
  | 0, s => s
  | fuel + 1, s => if hasUU s then collapse fuel (replaceUU s) else s

/-- The test `sanitized and sanitized[0].isdigit()`. -/
def startsWithDigit : Str → Bool
  | [] => false
  | c :: _ => c.isDigit

/-- `sanitize_test_name` from `generate_tests.py` (the richer variant). -/
def sanitizeGen (name : Str) : Str :=
  let s1 := replaceChar '-' name
  let s2 := replaceChar '.' s1
  let s3 := replaceChar ' ' s2
  let s4 := replaceColons s3
  let s5 := replaceChar '(' s4
  let s6 := replaceChar ')' s5
  let s7 := replaceChar '[' s6
  let s8 := replaceChar ']' s7
  let s9 := replaceChar ',' s8
  let s10 := (s9.map keepClean)
  let s11 := collapse s10.length s10
  if startsWithDigit s11 then str "test_" ++ s11 else s11

/-- `sanitize_test_name` from `generate_spec_tests.py` (the simpler variant). -/
def sanitizeSpec (name : Str) : Str :=
  let s1 := replaceChar '-' name
  let s2 := replaceChar '.' s1
  let s3 := replaceChar ' ' s2
  let s4 := (s3.map keepClean)
  if startsWithDigit s4 then str "test_" ++ s4 else s4

/-- Characters that survive sanitization: alphanumerics and the separator. -/
def isClean (c : Char) : Bool := c.isAlphanum || c = '_'

/-- All characters of `s` are alphanumeric or underscore. -/
def Clean (s : Str) : Prop := ∀ c ∈ s, isClean c = true

example : sanitizeGen (str "a.b") = str "a_b" := by decide
example : sanitizeGen (str "a_b_1") = str "a_b_1" := by decide
example : sanitizeGen (str "3x y") = str "test_3x_y" := by decide
example : sanitizeSpec (str "a::b") = str "a__b" := by decide

/-! ### Sanitizer lemmas -/

theorem isClean_underscore : isClean '_' = true := by decide

theorem clean_map_keepClean (s : Str) : Clean (s.map keepClean) := by
  intro c hc
  rcases List.mem_map.mp hc with ⟨a, _, rfl⟩
  unfold keepClean
  split
  · next h => exact h
  · exact isClean_underscore

theorem mem_replaceUU (s : Str) : ∀ c ∈ replaceUU s, c ∈ s ∨ c = '_' := by
  induction s using twoStepInduction with
  | h0 => simp [replaceUU]
  | h1 c => simp [replaceUU]
  | h2 c1 c2 rest ih1 ih2 =>
    intro c hc
    simp only [replaceUU] at hc
    split at hc
    · rcases List.mem_cons.mp hc with rfl | h
      · right; rfl
      · rcases ih1 c h with h' | h'
        · left; simp [h']
        · right; exact h'
    · rcases List.mem_cons.mp hc with rfl | h
      · left; simp
      · rcases ih2 c h with h' | h'
        · left; simp at h' ⊢; tauto
        · right; exact h'

theorem mem_collapse (fuel : Nat) (s : Str) : ∀ c ∈ collapse fuel s, c ∈ s ∨ c = '_' := by
  induction fuel generalizing s with
  | zero => intro c hc; left; exact hc
  | succ fuel ih =>
    intro c hc
    simp only [collapse] at hc
    split at hc
    · rcases ih (replaceUU s) c hc with h | h
      · exact mem_replaceUU s c h
      · right; exact h
    · left; exact hc

theorem clean_collapse {fuel : Nat} {s : Str} (h : Clean s) : Clean (collapse fuel s) := by
  intro c hc
  rcases mem_collapse fuel s c hc with h' | h'
  · exact h c h'
  · subst h'; exact isClean_underscore

theorem length_replaceUU_le (s : Str) : (replaceUU s).length ≤ s.length := by
  induction s using twoStepInduction with
  | h0 => simp [replaceUU]
  | h1 c => simp [replaceUU]
  | h2 c1 c2 rest ih1 ih2 =>
    simp only [replaceUU]
    split
    · simp only [List.length_cons]; omega
    · simp only [List.length_cons] at ih2 ⊢; omega

theorem length_replaceUU_lt {s : Str} (h : hasUU s = true) :
    (replaceUU s).length < s.length := by
  induction s using twoStepInduction with
  | h0 => simp [hasUU] at h
  | h1 c => simp [hasUU] at h
  | h2 c1 c2 rest ih1 ih2 =>
    simp only [replaceUU]
    split
    · have := length_replaceUU_le rest
      simp only [List.length_cons]; omega
    · next hne =>
      simp only [hasUU, Bool.or_eq_true, Bool.and_eq_true, decide_eq_true_eq] at h
      rcases h with ⟨h1', h2'⟩ | h'
      · exact absurd ⟨h1', h2'⟩ hne
      · have := ih2 h'
        simp only [List.length_cons] at this ⊢; omega

theorem hasUU_collapse (fuel : Nat) : ∀ s : Str, s.length ≤ fuel →
    hasUU (collapse fuel s) = false := by
  induction fuel with
  | zero =>
    intro s hs
    have : s = [] := List.length_eq_zero.mp (Nat.le_zero.mp hs)
    subst this
    simp [collapse, hasUU]
  | succ fuel ih =>
    intro s hs
    simp only [collapse]
    split
    · next h =>
      exact ih (replaceUU s) (by have := length_replaceUU_lt h; omega)
    · next h => exact Bool.eq_false_iff.mpr (fun hc => h (by rw [hc]))

theorem collapse_of_hasUU_false {s : Str} (h : hasUU s = false) (fuel : Nat) :
    collapse fuel s = s := by
  cases fuel with
  | zero => rfl
  | succ fuel => simp [collapse, h]

theorem notMem_of_clean {s : Str} (hc : Clean s) {a : Char} (ha : isClean a = false) :
    a ∉ s := by
  intro h
  rw [hc a h] at ha
  exact Bool.noConfusion ha

theorem replaceChar_id {a : Char} {s : Str} (h : a ∉ s) : replaceChar a s = s := by
  unfold replaceChar
  rw [List.map_congr_left, List.map_id]
  intro c hc
  have : c ≠ a := fun hca => h (hca ▸ hc)
  simp [this]

theorem replaceColons_id {s : Str} (h : ':' ∉ s) : replaceColons s = s := by
  induction s using twoStepInduction with
  | h0 => rfl
  | h1 c => rfl
  | h2 c1 c2 rest ih1 ih2 =>
    have hc1 : c1 ≠ ':' := fun hc => h (by simp [hc])
    have hmem : ':' ∉ c2 :: rest := fun hc => h (List.mem_cons_of_mem _ hc)
    simp only [replaceColons]
    rw [if_neg (fun hand => hc1 hand.1), ih2 hmem]

theorem map_keepClean_id {s : Str} (h : Clean s) : s.map keepClean = s := by
  rw [List.map_congr_left, List.map_id]
  intro c hc
  have := h c hc
  simp only [isClean, Bool.or_eq_true, decide_eq_true_eq] at this
  simp [keepClean, this]

theorem clean_append {s t : Str} (hs : Clean s) (ht : Clean t) : Clean (s ++ t) := by
  intro c hc
  rcases List.mem_append.mp hc with h | h
  · exact hs c h
  · exact ht c h

theorem clean_test_underscore : Clean (str "test_") := by
  have h : str "test_" = ['t', 'e', 's', 't', '_'] := rfl
  rw [h]
  intro c hc
  simp only [List.mem_cons, List.not_mem_nil, or_false] at hc
  rcases hc with rfl | rfl | rfl | rfl | rfl <;> decide

theorem hasUU_guard {s : Str} (hd : startsWithDigit s = true) (hu : hasUU s = false) :
    hasUU (str "test_" ++ s) = false := by
  cases s with
  | nil => simp [startsWithDigit] at hd
  | cons c tail =>
    have hc : c ≠ '_' := by
      intro hc
      subst hc
      simp only [startsWithDigit] at hd
      exact Bool.noConfusion (hd.symm.trans (by decide : ('_').isDigit = false))
    show hasUU ('t' :: 'e' :: 's' :: 't' :: '_' :: c :: tail) = false
    simp only [hasUU] at hu ⊢
    simp [hc, hu]

/-- Every character of a sanitized name is alphanumeric or underscore. -/
theorem clean_sanitizeGen (x : Str) : Clean (sanitizeGen x) := by
  simp only [sanitizeGen]
  split
  · exact clean_append clean_test_underscore (clean_collapse (clean_map_keepClean _))
  · exact clean_collapse (clean_map_keepClean _)

theorem clean_sanitizeSpec (x : Str) : Clean (sanitizeSpec x) := by
  simp only [sanitizeSpec]
  split
  · exact clean_append clean_test_underscore (clean_map_keepClean _)
  · exact clean_map_keepClean _

/-- A sanitized name (richer variant) has no doubled underscore. -/
theorem hasUU_sanitizeGen (x : Str) : hasUU (sanitizeGen x) = false := by
  simp only [sanitizeGen]
  split
  · next h => exact hasUU_guard h (hasUU_collapse _ _ le_rfl)
  · exact hasUU_collapse _ _ le_rfl

/-- A sanitized name never starts with a digit. -/
theorem startsWithDigit_sanitizeGen (x : Str) : startsWithDigit (sanitizeGen x) = false := by
  simp only [sanitizeGen]
  split
  · rfl
  · next h => exact Bool.eq_false_iff.mpr (fun hc => h (by rw [hc]))

theorem startsWithDigit_sanitizeSpec (x : Str) : startsWithDigit (sanitizeSpec x) = false := by
  simp only [sanitizeSpec]
  split
  · rfl
  · next h => exact Bool.eq_false_iff.mpr (fun hc => h (by rw [hc]))

/-- On an already-sanitized string the richer sanitizer is the identity. -/
theorem sanitizeGen_pass_id {s : Str} (hc : Clean s) (hu : hasUU s = false)
    (hd : startsWithDigit s = false) : sanitizeGen s = s := by
  simp only [sanitizeGen]
  rw [replaceChar_id (notMem_of_clean hc (by decide)),
      replaceChar_id (notMem_of_clean hc (by decide)),
      replaceChar_id (notMem_of_clean hc (by decide)),
      replaceColons_id (notMem_of_clean hc (by decide)),
      replaceChar_id (notMem_of_clean hc (by decide)),
      replaceChar_id (notMem_of_clean hc (by decide)),
      replaceChar_id (notMem_of_clean hc (by decide)),
      replaceChar_id (notMem_of_clean hc (by decide)),
      replaceChar_id (notMem_of_clean hc (by decide)),
      map_keepClean_id hc, collapse_of_hasUU_false hu, hd]
  simp

theorem sanitizeSpec_pass_id {s : Str} (hc : Clean s)
    (hd : startsWithDigit s = false) : sanitizeSpec s = s := by
  simp only [sanitizeSpec]
  rw [replaceChar_id (notMem_of_clean hc (by decide)),
      replaceChar_id (notMem_of_clean hc (by decide)),
      replaceChar_id (notMem_of_clean hc (by decide)),
      map_keepClean_id hc, hd]
  simp

/-- C7: `sanitize(sanitize(x)) = sanitize(x)` for every raw name `x`, for
both the richer sanitizer of `generate_tests.py` (which also collapses
consecutive separators) and the simpler one of `generate_spec_tests.py`. -/
theorem C7_sanitize_idempotent :
    ∀ x : Str, sanitizeGen (sanitizeGen x) = sanitizeGen x ∧
      sanitizeSpec (sanitizeSpec x) = sanitizeSpec x := by
  intro x
  constructor
  · exact sanitizeGen_pass_id (clean_sanitizeGen x) (hasUU_sanitizeGen x)
      (startsWithDigit_sanitizeGen x)
  · exact sanitizeSpec_pass_id (clean_sanitizeSpec x) (startsWithDigit_sanitizeSpec x)

/-! ## Collision handling (`used_names` counter)

Both generators track a dict from sanitized base name to a counter:
the first occurrence keeps the base name (and stores 0), each later
occurrence increments the counter and appends it as a suffix
(`f"{safe_test_name}_{used_names[safe_test_name]}"`). -/

/-- A decimal digit as a character, as rendered by a Python f-string. -/
def digitChar : Nat → Char
  | 0 => '0' | 1 => '1' | 2 => '2' | 3 => '3' | 4 => '4'
  | 5 => '5' | 6 => '6' | 7 => '7' | 8 => '8' | 9 => '9'
  | _ => '*'

/-- Big-endian decimal digits of `n` (empty for 0); fuel-based so that it
is structurally recursive. -/
def natDigitsAux : Nat → Nat → Str
  | 0, _ => []
  | _ + 1, 0 => []
  | fuel + 1, n + 1 => natDigitsAux fuel ((n + 1) / 10) ++ [digitChar ((n + 1) % 10)]

/-- The decimal rendering of a natural number, as in `f"..._{count}"`. -/
def natToStr (n : Nat) : Str :=
  if n = 0 then ['0'] else natDigitsAux n n

/-- Reads decimal digits back; left inverse of `natToStr`. -/
def valOf (s : Str) : Nat := s.foldl (fun a c => 10 * a + (c.toNat - 48)) 0

/-- The per-file dict lookup `safe_test_name in used_names` /
`used_names[safe_test_name]`. -/
def lookupC : List (Str × Nat) → Str → Option Nat
  | [], _ => none
  | (k, v) :: rest, b => if k = b then some v else lookupC rest b

/-- The dict update `used_names[safe_test_name] = w` for an existing key. -/
def setC : List (Str × Nat) → Str → Nat → List (Str × Nat)
  | [], _, _ => []
  | (k, v) :: rest, b, w => if k = b then (k, w) :: rest else (k, v) :: setC rest b w

/-- The per-file naming loop of `generate_test_file`: sanitize each raw
name with `f` and resolve collisions through the `used_names` dict. -/
def assignIdsAux (f : Str → Str) : List (Str × Nat) → List Str → List Str
  | _, [] => []
  | used, n :: ns =>
    match lookupC used (f n) with
    | some k => (f n ++ '_' :: natToStr (k + 1)) :: assignIdsAux f (setC used (f n) (k + 1)) ns
    | none => f n :: assignIdsAux f ((f n, 0) :: used) ns

/-- Final unit identifiers assigned to the raw names of one fixture file. -/
def assignIds (f : Str → Str) (names : List Str) : List Str :=
  assignIdsAux f [] names

/-- The identifier the spec describes for an occurrence of base `b` that
`k` earlier raw names already reached: the bare base for the first
occurrence, `b_k` for the k-th collision. -/
def mkId (b : Str) (k : Nat) : Str :=
  if k = 0 then b else b ++ '_' :: natToStr k

/-- Identifier assignment as the spec words it: each name's suffix is the
number of earlier occurrences of its sanitized base, in first-seen order. -/
def specIdsAux (f : Str → Str) : List Str → List Str → List Str
  | _, [] => []
  | prev, n :: ns =>
    mkId (f n) (prev.count (f n)) :: specIdsAux f (prev ++ [f n]) ns

/-- Spec-side description of the identifier list (for the refinement proof). -/
def specIds (f : Str → Str) (names : List Str) : List Str :=
  specIdsAux f [] names

/-- Does a name end in an underscore followed by decimal digits? -/
def hasNumSuffix (s : Str) : Bool :=
  let r := s.reverse
  let ds := r.takeWhile Char.isDigit
  !ds.isEmpty && ((r.drop ds.length).head? == some '_')

example : hasNumSuffix (str "a_b_1") = true := by decide
example : hasNumSuffix (str "a_b") = false := by decide
example : hasNumSuffix (str "a_") = false := by decide
example : assignIds sanitizeGen [str "a.b", str "a-b", str "a_b_1"] =
    [str "a_b", str "a_b_1", str "a_b_1"] := by decide

/-! ### Decimal rendering lemmas -/

theorem digitChar_toNat {d : Nat} (h : d < 10) : (digitChar d).toNat - 48 = d := by
  interval_cases d <;> decide

theorem digitChar_isDigit {d : Nat} (h : d < 10) : (digitChar d).isDigit = true := by
  interval_cases d <;> decide

theorem valOf_append_digit (xs : Str) (c : Char) :
    valOf (xs ++ [c]) = 10 * valOf xs + (c.toNat - 48) := by
  unfold valOf
  rw [List.foldl_append]
  rfl

theorem valOf_natDigitsAux : ∀ fuel n, n ≤ fuel → valOf (natDigitsAux fuel n) = n := by
  intro fuel
  induction fuel with
  | zero =>
    intro n hn
    have : n = 0 := Nat.le_zero.mp hn
    subst this
    rfl
  | succ fuel ih =>
    intro n hn
    cases n with
    | zero => rfl
    | succ m =>
      have hq : (m + 1) / 10 ≤ fuel := by
        have := Nat.div_lt_self (Nat.succ_pos m) (by omega : 1 < 10)
        omega
      simp only [natDigitsAux]
      rw [valOf_append_digit, ih _ hq, digitChar_toNat (Nat.mod_lt _ (by omega))]
      omega

theorem valOf_natToStr (n : Nat) : valOf (natToStr n) = n := by
  unfold natToStr
  split
  · next h => subst h; rfl
  · next h => exact valOf_natDigitsAux n n le_rfl

theorem natToStr_inj {m n : Nat} (h : natToStr m = natToStr n) : m = n := by
  have := congrArg valOf h
  rwa [valOf_natToStr, valOf_natToStr] at this

theorem mem_natDigitsAux_isDigit :
    ∀ fuel n c, c ∈ natDigitsAux fuel n → c.isDigit = true := by
  intro fuel
  induction fuel with
  | zero => intro n c hc; simp [natDigitsAux] at hc
  | succ fuel ih =>
    intro n c hc
    cases n with
    | zero => simp [natDigitsAux] at hc
    | succ m =>
      simp only [natDigitsAux, List.mem_append, List.mem_singleton] at hc
      rcases hc with hc | rfl
      · exact ih _ c hc
      · exact digitChar_isDigit (Nat.mod_lt _ (by omega))

theorem mem_natToStr_isDigit (n : Nat) : ∀ c ∈ natToStr n, c.isDigit = true := by
  intro c hc
  unfold natToStr at hc
  split at hc
  · simp only [List.mem_singleton] at hc; subst hc; decide
  · exact mem_natDigitsAux_isDigit n n c hc

theorem natToStr_ne_nil (n : Nat) : natToStr n ≠ [] := by
  intro h
  have := valOf_natToStr n
  rw [h] at this
  cases n with
  | zero => exact absurd h (by decide)
  | succ m => simp [valOf] at this

/-! ### Suffix-splitting lemmas -/

theorem append_sep_inj : ∀ (b b' d d' : Str), (∀ c ∈ d, c.isDigit = true) →
    (∀ c ∈ d', c.isDigit = true) → b ++ '_' :: d = b' ++ '_' :: d' →
    b = b' ∧ d = d' := by
  intro b
  induction b with
  | nil =>
    intro b' d d' hd hd' h
    cases b' with
    | nil =>
      simp only [List.nil_append, List.cons.injEq] at h
      exact ⟨rfl, h.2⟩
    | cons c bs =>
      exfalso
      simp only [List.nil_append, List.cons_append, List.cons.injEq] at h
      have hmem : '_' ∈ d := by
        rw [h.2]
        exact List.mem_append.mpr (Or.inr (List.mem_cons_self _ _))
      have := hd '_' hmem
      exact Bool.noConfusion (this.symm.trans (by decide : ('_').isDigit = false))
  | cons c bs ih =>
    intro b' d d' hd hd' h
    cases b' with
    | nil =>
      exfalso
      simp only [List.nil_append, List.cons_append, List.cons.injEq] at h
      have hmem : '_' ∈ d' := by
        rw [← h.2]
        exact List.mem_append.mpr (Or.inr (List.mem_cons_self _ _))
      have := hd' '_' hmem
      exact Bool.noConfusion (this.symm.trans (by decide : ('_').isDigit = false))
    | cons c' bs' =>
      simp only [List.cons_append, List.cons.injEq] at h
      obtain ⟨rfl, h2⟩ := h
      obtain ⟨h3, h4⟩ := ih bs' d d' hd hd' h2
      exact ⟨by rw [h3], h4⟩

theorem takeWhile_append_eq {p : Char → Bool} :
    ∀ {xs : Str}, (∀ x ∈ xs, p x = true) → ∀ {y : Char} {ys : Str}, p y = false →
    (xs ++ y :: ys).takeWhile p = xs := by
  intro xs
  induction xs with
  | nil =>
    intro _ y ys hy
    simp [List.takeWhile_cons, hy]
  | cons x xs ih =>
    intro hxs y ys hy
    have hx := hxs x (List.mem_cons_self _ _)
    simp only [List.cons_append, List.takeWhile_cons, hx, if_true]
    rw [ih (fun a ha => hxs a (List.mem_cons_of_mem _ ha)) hy]

theorem hasNumSuffix_append {d : Str} (hne : d ≠ [])
    (hd : ∀ c ∈ d, c.isDigit = true) (b : Str) :
    hasNumSuffix (b ++ '_' :: d) = true := by
  have hrev : (b ++ '_' :: d).reverse = d.reverse ++ '_' :: b.reverse := by
    rw [List.reverse_append, List.reverse_cons, List.append_assoc]
    rfl
  have htw : ((b ++ '_' :: d).reverse).takeWhile Char.isDigit = d.reverse := by
    rw [hrev]
    exact takeWhile_append_eq (fun x hx => hd x (List.mem_reverse.mp hx)) (by decide)
  have hrne : d.reverse ≠ [] := fun h => hne (List.reverse_eq_nil_iff.mp h)
  simp only [hasNumSuffix]
  rw [htw, hrev, List.drop_left]
  cases hrd : d.reverse with
  | nil => exact absurd hrd hrne
  | cons x xs => simp

/-! ### Distinctness of assigned identifiers -/

theorem mkId_zero (b : Str) : mkId b 0 = b := rfl

theorem mkId_pos (b : Str) {k : Nat} (h : k ≠ 0) : mkId b k = b ++ '_' :: natToStr k := by
  simp [mkId, h]

theorem mkId_inj {b b' : Str} {k k' : Nat} (hb : hasNumSuffix b = false)
    (hb' : hasNumSuffix b' = false) (h : mkId b k = mkId b' k') : b = b' ∧ k = k' := by
  rcases Nat.eq_zero_or_pos k with hk | hk <;> rcases Nat.eq_zero_or_pos k' with hk' | hk'
  · subst hk; subst hk'
    rw [mkId_zero, mkId_zero] at h
    exact ⟨h, rfl⟩
  · exfalso
    subst hk
    rw [mkId_zero, mkId_pos b' (by omega)] at h
    have := hasNumSuffix_append (natToStr_ne_nil k') (mem_natToStr_isDigit k') b'
    rw [← h] at this
    exact Bool.noConfusion (hb.symm.trans this)
  · exfalso
    subst hk'
    rw [mkId_zero, mkId_pos b (by omega)] at h
    have := hasNumSuffix_append (natToStr_ne_nil k) (mem_natToStr_isDigit k) b
    rw [h] at this
    exact Bool.noConfusion (hb'.symm.trans this)
  · rw [mkId_pos b (by omega), mkId_pos b' (by omega)] at h
    obtain ⟨h1, h2⟩ := append_sep_inj b b' _ _ (mem_natToStr_isDigit k)
      (mem_natToStr_isDigit k') h
    exact ⟨h1, natToStr_inj h2⟩

theorem count_append_singleton_self (prev : List Str) (b : Str) :
    (prev ++ [b]).count b = prev.count b + 1 := by
  rw [List.count_append]
  simp

theorem count_append_singleton_le (prev : List Str) (b b' : Str) :
    prev.count b' ≤ (prev ++ [b]).count b' := by
  rw [List.count_append]
  omega

theorem mem_specIdsAux {f : Str → Str} :
    ∀ (ns prev : List Str) (idv : Str), idv ∈ specIdsAux f prev ns →
      ∃ n, n ∈ ns ∧ ∃ k, idv = mkId (f n) k ∧ prev.count (f n) ≤ k := by
  intro ns
  induction ns with
  | nil => intro prev idv h; simp [specIdsAux] at h
  | cons n ns ih =>
    intro prev idv h
    simp only [specIdsAux, List.mem_cons] at h
    rcases h with rfl | h
    · exact ⟨n, List.mem_cons_self _ _, prev.count (f n), rfl, le_rfl⟩
    · obtain ⟨m, hm, k, hk, hle⟩ := ih (prev ++ [f n]) idv h
      exact ⟨m, List.mem_cons_of_mem _ hm, k, hk,
        le_trans (count_append_singleton_le prev (f n) (f m)) hle⟩

theorem specIdsAux_nodup {f : Str → Str} :
    ∀ (ns prev : List Str), (∀ n ∈ ns, hasNumSuffix (f n) = false) →
      (specIdsAux f prev ns).Nodup := by
  intro ns
  induction ns with
  | nil => intro prev _; simp [specIdsAux]
  | cons n ns ih =>
    intro prev hsuf
    simp only [specIdsAux]
    rw [List.nodup_cons]
    constructor
    · intro hmem
      obtain ⟨m, hm, k, hk, hle⟩ := mem_specIdsAux _ _ _ hmem
      obtain ⟨hbeq, hkeq⟩ := mkId_inj (hsuf n (List.mem_cons_self _ _))
        (hsuf m (List.mem_cons_of_mem _ hm)) hk
      rw [← hbeq] at hle
      rw [count_append_singleton_self] at hle
      omega
    · exact ih _ (fun m hm => hsuf m (List.mem_cons_of_mem _ hm))

/-- Under the no-pre-suffixed-bases hypothesis every identifier list the
spec describes is duplicate-free. -/
theorem specIds_nodup {f : Str → Str} {names : List Str}
    (h : ∀ n ∈ names, hasNumSuffix (f n) = false) : (specIds f names).Nodup :=
  specIdsAux_nodup names [] h

/-! ### The dict-based loop refines the count-based description -/

theorem lookupC_setC_self : ∀ (used : List (Str × Nat)) (b : Str) (v w : Nat),
    lookupC used b = some v → lookupC (setC used b w) b = some w := by
  intro used
  induction used with
  | nil => intro b v w h; simp [lookupC] at h
  | cons kv rest ih =>
    intro b v w h
    obtain ⟨k, v'⟩ := kv
    simp only [lookupC, setC] at h ⊢
    by_cases hk : k = b
    · simp [hk, lookupC]
    · simp only [hk, if_false] at h ⊢
      simp only [lookupC, hk, if_false]
      exact ih b v w h

theorem lookupC_setC_ne : ∀ (used : List (Str × Nat)) (b b' : Str) (w : Nat),
    b' ≠ b → lookupC (setC used b w) b' = lookupC used b' := by
  intro used
  induction used with
  | nil => intro b b' w _; rfl
  | cons kv rest ih =>
    intro b b' w hne
    obtain ⟨k, v⟩ := kv
    simp only [setC]
    by_cases hk : k = b
    · subst hk
      simp only [if_true, lookupC]
      have : ¬ k = b' := fun h => hne h.symm
      simp [this]
    · simp only [hk, if_false, lookupC]
      by_cases hk' : k = b'
      · simp [hk']
      · simp only [hk', if_false]
        exact ih b b' w hne

theorem count_append_singleton_ne (prev : List Str) {b b' : Str} (h : b' ≠ b) :
    (prev ++ [b]).count b' = prev.count b' := by
  rw [List.count_append]
  simp [List.count_cons, h]

theorem assignIdsAux_eq_specIdsAux {f : Str → Str} :
    ∀ (ns : List Str) (used : List (Str × Nat)) (prev : List Str),
      (∀ b, lookupC used b = if prev.count b = 0 then none else some (prev.count b - 1)) →
      assignIdsAux f used ns = specIdsAux f prev ns := by
  intro ns
  induction ns with
  | nil => intro used prev _; rfl
  | cons n ns ih =>
    intro used prev hinv
    have hbn := hinv (f n)
    by_cases hc : prev.count (f n) = 0
    · rw [if_pos hc] at hbn
      simp only [assignIdsAux, hbn, specIdsAux, hc, mkId_zero]
      congr 1
      apply ih
      intro b
      by_cases hb : b = f n
      · subst hb
        simp only [lookupC, if_pos rfl, count_append_singleton_self, hc]
        rfl
      · have hbne : ¬ (f n = b) := fun h => hb h.symm
        simp only [lookupC, hbne, if_false]
        rw [hinv b, count_append_singleton_ne prev hb]
    · rw [if_neg hc] at hbn
      have hc1 : prev.count (f n) - 1 + 1 = prev.count (f n) := by
        have := Nat.pos_of_ne_zero hc
        omega
      simp only [assignIdsAux, hbn, specIdsAux, hc1, mkId_pos _ hc]
      congr 1
      apply ih
      intro b
      by_cases hb : b = f n
      · subst hb
        rw [lookupC_setC_self used (f n) _ _ hbn, count_append_singleton_self]
        simp
      · rw [lookupC_setC_ne used (f n) b _ hb, hinv b, count_append_singleton_ne prev hb]

/-- The dict-based loop of both generators equals the count-based
first-seen-order description, for every sanitizer. -/
theorem assignIds_eq_specIds (f : Str → Str) (names : List Str) :
    assignIds f names = specIds f names := by
  apply assignIdsAux_eq_specIdsAux
  intro b
  simp [lookupC, List.count_nil]

/-! ## JSON values and the Test-Unit Compiler

`generate_test_file` in both scripts: parse failures and a non-mapping
top level return 0 with a warning on stderr; a mapping yields one test
unit per top-level key.  The parsed state of a fixture file is embedded
as `FileContent`; `Json.obj` stands for the dict `json.load` returns. -/

inductive Json where
  | obj : List (Str × Json) → Json
  | arr : List Json → Json
  | jstr : Str → Json
  | num : Int → Json
  | bool : Bool → Json
  | null : Json

/-- What opening and parsing one fixture file can yield: an `IOError`,
a `json.JSONDecodeError`, or a parsed JSON value. -/
inductive FileContent where
  | unreadable : FileContent
  | malformed : FileContent
  | parsed : Json → FileContent

/-- Observable result of compiling one fixture file: the returned unit
count, whether a warning was printed to stderr, and the identifiers of
the emitted test units in emission order. -/
structure CompileOut where
  unit_count : Nat
  warned : Bool
  ids : List Str
deriving DecidableEq

/-- The only uncaught exception class in `generate_test_file`:
`Path.relative_to` raising `ValueError` on a non-descendant path. -/
inductive CompileErr where
  | notDescendant : CompileErr
deriving DecidableEq

/-- `pathlib.Path.relative_to`: strips the root when it is a path-segment
prefix, raises (here: `none`) otherwise. -/
def relative_to (path root : FPath) : Option FPath :=
  if root.isPrefixOf path then some (path.drop root.length) else none

/-- `generate_test_file` from `generate_spec_tests.py`.  The try/except
covers only opening and parsing; the `isinstance` check runs before
`json_path.relative_to(specs_root)`, so bad content returns 0 while a
non-descendant path raises out of the function. -/
def generate_test_file_spec (json_path specs_root : FPath) (content : FileContent) :
    Except CompileErr CompileOut :=
  match content with
  | .unreadable => .ok ⟨0, true, []⟩
  | .malformed => .ok ⟨0, true, []⟩
  | .parsed j =>
    match j with
    | .obj kvs =>
      match relative_to json_path specs_root with
      | none => .error .notDescendant
      | some _ => .ok ⟨kvs.length, false, assignIds sanitizeSpec (kvs.map Prod.fst)⟩
    | _ => .ok ⟨0, true, []⟩

/-- `generate_test_file` from `generate_tests.py`; its relative path is
precomputed by the caller, so the function itself is total. -/
def generate_test_file_gen (content : FileContent) : CompileOut :=
  match content with
  | .unreadable => ⟨0, true, []⟩
  | .malformed => ⟨0, true, []⟩
  | .parsed j =>
    match j with
    | .obj kvs => ⟨kvs.length, false, assignIds sanitizeGen (kvs.map Prod.fst)⟩
    | _ => ⟨0, true, []⟩

/-- The per-source loop of `generate_spec_tests.main`: compile each file
in traversal order and accumulate the unit counts; an uncaught exception
aborts the whole run. -/
def runAllSpec (specs_root : FPath) : List (FPath × FileContent) → Except CompileErr Nat
  | [] => .ok 0
  | (p, c) :: rest =>
    match generate_test_file_spec p specs_root c with
    | .error e => .error e
    | .ok out =>
      match runAllSpec specs_root rest with
      | .error e => .error e
      | .ok n => .ok (out.unit_count + n)

/-! ## Path Resolver

Both generators mirror the fixture file's relative path below the
generation root and compute
`depth = len(output_file.relative_to(output_dir).parts)` followed by
`root_import = "../" * depth + "root.zig"`. -/

/-- `PurePath.with_suffix(".zig")` on a file name: replace the last
dot-extension, or append when there is none. -/
def zigName (f : Str) : Str :=
  if '.' ∈ f then ((f.reverse.dropWhile (fun c => !(decide (c = '.')))).drop 1).reverse ++ str ".zig"
  else f ++ str ".zig"

/-- `rel_path.with_suffix(".zig")` over the segments of a relative path. -/
def withSuffixZig : FPath → FPath
  | [] => []
  | [f] => [zigName f]
  | c :: rest => c :: withSuffixZig rest

/-- `json_rel_path.replace(".json", ".zig")` restricted to one segment;
the pattern contains no separator, so the string-level replace of
`generate_tests.py` acts segment by segment. -/
def replJZ : Str → Str
  | '.' :: 'j' :: 's' :: 'o' :: 'n' :: rest => '.' :: 'z' :: 'i' :: 'g' :: replJZ rest
  | c :: rest => c :: replJZ rest
  | [] => []

/-- Output path relative to the generation root, `generate_spec_tests.py`:
`output_dir / rel_path.with_suffix(".zig")`. -/
def outputRelSpec (relParts : FPath) : FPath := withSuffixZig relParts

/-- Output path relative to the generation root, `generate_tests.py`:
the `ethereum_tests` source gains a namespace directory. -/
def outputRelGen (source_name : Str) (relParts : FPath) : FPath :=
  if source_name = str "ethereum_tests" then str "ethereum_tests" :: relParts.map replJZ
  else relParts.map replJZ

/-- `depth = len(output_file.relative_to(output_dir).parts)`. -/
def import_depth_spec (relParts : FPath) : Nat := (outputRelSpec relParts).length

/-- `root_import = "../" * depth + "root.zig"`. -/
def root_import_spec (relParts : FPath) : Str :=
  (List.replicate (import_depth_spec relParts) (str "../")).flatten ++ str "root.zig"

def import_depth_gen (source_name : Str) (relParts : FPath) : Nat :=
  (outputRelGen source_name relParts).length

def root_import_gen (source_name : Str) (relParts : FPath) : Str :=
  (List.replicate (import_depth_gen source_name relParts) (str "../")).flatten ++ str "root.zig"

example : zigName (str "foo.json") = str "foo.zig" := by decide
example : withSuffixZig [str "d", str "f.json"] = [str "d", str "f.zig"] := by decide
example : replJZ (str "f.json") = str "f.zig" := by decide
example : root_import_spec [str "d", str "f.json"] = str "../../root.zig" := by decide

theorem length_withSuffixZig : ∀ relParts : FPath,
    (withSuffixZig relParts).length = relParts.length := by
  intro relParts
  induction relParts with
  | nil => rfl
  | cons c rest ih =>
    cases rest with
    | nil => rfl
    | cons d tail =>
      simp only [withSuffixZig, List.length_cons] at ih ⊢
      omega

/-! ## Claim C1 -/

/-- C1 counterexample: the three pairwise-distinct raw names `a.b`, `a-b`
and `a_b_1` (the last already ending in the numeric suffix `_1`) are
compiled into the identifiers `a_b`, `a_b_1`, `a_b_1` — not pairwise
distinct, refuting the claim's extension to raw names that already end
in a numeric suffix. -/
theorem C1_counterexample :
    (([(str "a.b", Json.null), (str "a-b", Json.null), (str "a_b_1", Json.null)].map
        Prod.fst).Nodup) ∧
    ¬ ((generate_test_file_gen (FileContent.parsed (Json.obj
        [(str "a.b", Json.null), (str "a-b", Json.null), (str "a_b_1", Json.null)]))).ids).Nodup := by
  constructor
  · decide
  · decide

/-- C1 amended: within one generated file the unit identifiers are
pairwise distinct, the first raw name reaching a sanitized base keeps the
unsuffixed base and the k-th later one gets suffix `_k` in first-seen
order, provided no raw name's sanitized form itself ends in an
underscore followed by decimal digits (the unrestricted claim fails, see
the counterexample).  Stated for the compiler of `generate_tests.py` and
for the naming loop of `generate_spec_tests.py`. -/
theorem C1_amended (kvs : List (Str × Json))
    (h1 : ∀ n ∈ kvs.map Prod.fst, hasNumSuffix (sanitizeGen n) = false)
    (h2 : ∀ n ∈ kvs.map Prod.fst, hasNumSuffix (sanitizeSpec n) = false) :
    ((generate_test_file_gen (FileContent.parsed (Json.obj kvs))).ids).Nodup ∧
    (generate_test_file_gen (FileContent.parsed (Json.obj kvs))).ids =
      specIds sanitizeGen (kvs.map Prod.fst) ∧
    (assignIds sanitizeSpec (kvs.map Prod.fst)).Nodup ∧
    assignIds sanitizeSpec (kvs.map Prod.fst) = specIds sanitizeSpec (kvs.map Prod.fst) := by
  have hgen : (generate_test_file_gen (FileContent.parsed (Json.obj kvs))).ids =
      assignIds sanitizeGen (kvs.map Prod.fst) := rfl
  refine ⟨?_, ?_, ?_, ?_⟩
  · rw [hgen, assignIds_eq_specIds]
    exact specIds_nodup h1
  · rw [hgen, assignIds_eq_specIds]
  · rw [assignIds_eq_specIds]
    exact specIds_nodup h2
  · rw [assignIds_eq_specIds]

/-- C1 witness: concrete colliding pair `a.b`, `a-b` with suffix-free
bases; the amended theorem applies and yields distinct identifiers. -/
theorem C1_amended_witness :
    ((generate_test_file_gen (FileContent.parsed (Json.obj
      [(str "a.b", Json.null), (str "a-b", Json.null)]))).ids).Nodup :=
  (C1_amended [(str "a.b", Json.null), (str "a-b", Json.null)]
    (by decide) (by decide)).1

/-! ## Claim C3 -/

/-- C3: `import_depth` equals the number of path segments of the output
file's path relative to the generation root (counting the filename), the
emitted import string is exactly `import_depth` copies of the go-up
token followed by `root.zig`, and the depth is recomputed per file —
files one, two and three segments deep get depths 1, 2, 3. -/
theorem C3_import_depth :
    (∀ relParts : FPath, import_depth_spec relParts = relParts.length) ∧
    (∀ relParts : FPath, root_import_spec relParts =
      (List.replicate relParts.length (str "../")).flatten ++ str "root.zig") ∧
    (∀ relParts : FPath, import_depth_gen (str "execution_specs") relParts = relParts.length) ∧
    (∀ relParts : FPath, import_depth_gen (str "ethereum_tests") relParts = relParts.length + 1) ∧
    import_depth_spec [str "f.json"] = 1 ∧
    import_depth_spec [str "d", str "f.json"] = 2 ∧
    import_depth_spec [str "d", str "e", str "f.json"] = 3 ∧
    root_import_spec [str "d", str "e", str "f.json"] = str "../../../root.zig" := by
  refine ⟨?_, ?_, ?_, ?_, by decide, by decide, by decide, by decide⟩
  · intro relParts
    exact length_withSuffixZig relParts
  · intro relParts
    unfold root_import_spec
    rw [show import_depth_spec relParts = relParts.length from length_withSuffixZig relParts]
  · intro relParts
    unfold import_depth_gen outputRelGen
    rw [if_neg (by decide)]
    exact List.length_map _ _
  · intro relParts
    unfold import_depth_gen outputRelGen
    rw [if_pos rfl]
    simp

/-! ## Claim C4 -/

/-- Every non-mapping top-level JSON value (list, string, number,
boolean, null) makes `generate_test_file` of `generate_spec_tests.py`
take the warn-and-return-0 branch. -/
theorem spec_warns_non_obj {p root : FPath} {j : Json}
    (h : ∀ kvs : List (Str × Json), j ≠ Json.obj kvs) :
    generate_test_file_spec p root (FileContent.parsed j) = Except.ok ⟨0, true, []⟩ := by
  cases j with
  | obj kvs => exact absurd rfl (h kvs)
  | arr l => rfl
  | jstr s => rfl
  | num n => rfl
  | bool b => rfl
  | null => rfl

/-- The same for `generate_test_file` of `generate_tests.py`. -/
theorem gen_warns_non_obj {j : Json}
    (h : ∀ kvs : List (Str × Json), j ≠ Json.obj kvs) :
    generate_test_file_gen (FileContent.parsed j) = ⟨0, true, []⟩ := by
  cases j with
  | obj kvs => exact absurd rfl (h kvs)
  | arr l => rfl
  | jstr s => rfl
  | num n => rfl
  | bool b => rfl
  | null => rfl

/-- C4: the Test-Unit Compiler returns 0 and warns on an unreadable
file, malformed JSON, or any non-mapping top-level value — list,
string, number, boolean or null — for both generator scripts; none of
these aborts the per-source run; and a readable mapping yields exactly
the number of top-level keys. -/
theorem C4_soft_failure :
    (∀ p root : FPath,
      generate_test_file_spec p root FileContent.unreadable = Except.ok ⟨0, true, []⟩) ∧
    (∀ p root : FPath,
      generate_test_file_spec p root FileContent.malformed = Except.ok ⟨0, true, []⟩) ∧
    (∀ (p root : FPath) (j : Json), (∀ kvs : List (Str × Json), j ≠ Json.obj kvs) →
      generate_test_file_spec p root (FileContent.parsed j) =
        Except.ok ⟨0, true, []⟩) ∧
    (∀ (p root : FPath) (kvs : List (Str × Json)), root.isPrefixOf p = true →
      generate_test_file_spec p root (FileContent.parsed (Json.obj kvs)) =
        Except.ok ⟨kvs.length, false, assignIds sanitizeSpec (kvs.map Prod.fst)⟩) ∧
    (generate_test_file_gen FileContent.unreadable = ⟨0, true, []⟩) ∧
    (generate_test_file_gen FileContent.malformed = ⟨0, true, []⟩) ∧
    (∀ j : Json, (∀ kvs : List (Str × Json), j ≠ Json.obj kvs) →
      generate_test_file_gen (FileContent.parsed j) = ⟨0, true, []⟩) ∧
    (∀ kvs : List (Str × Json),
      (generate_test_file_gen (FileContent.parsed (Json.obj kvs))).unit_count = kvs.length ∧
      (generate_test_file_gen (FileContent.parsed (Json.obj kvs))).warned = false) ∧
    (∀ (root p : FPath) (rest : List (FPath × FileContent)),
      runAllSpec root ((p, FileContent.unreadable) :: rest) = runAllSpec root rest) ∧
    (∀ (root p : FPath) (rest : List (FPath × FileContent)),
      runAllSpec root ((p, FileContent.malformed) :: rest) = runAllSpec root rest) ∧
    (∀ (root p : FPath) (j : Json) (rest : List (FPath × FileContent)),
      (∀ kvs : List (Str × Json), j ≠ Json.obj kvs) →
      runAllSpec root ((p, FileContent.parsed j) :: rest) = runAllSpec root rest) := by
  refine ⟨fun p root => rfl, fun p root => rfl, fun p root j h => spec_warns_non_obj h, ?_,
    rfl, rfl, fun j h => gen_warns_non_obj h, fun kvs => ⟨rfl, rfl⟩, ?_, ?_, ?_⟩
  · intro p root kvs h
    simp [generate_test_file_spec, relative_to, h]
  · intro root p rest
    cases hr : runAllSpec root rest <;> simp [runAllSpec, hr, generate_test_file_spec]
  · intro root p rest
    cases hr : runAllSpec root rest <;> simp [runAllSpec, hr, generate_test_file_spec]
  · intro root p j rest h
    have hg : generate_test_file_spec p root (FileContent.parsed j) =
        Except.ok ⟨0, true, []⟩ := spec_warns_non_obj h
    cases hr : runAllSpec root rest <;> simp [runAllSpec, hg, hr]

/-- C4 witness: a mapping fixture under its root compiles to one unit. -/
theorem C4_soft_failure_witness :
    generate_test_file_spec [str "r", str "f.json"] [str "r"]
      (FileContent.parsed (Json.obj [(str "k", Json.null)])) =
      Except.ok ⟨1, false, assignIds sanitizeSpec [str "k"]⟩ :=
  C4_soft_failure.2.2.2.1 [str "r", str "f.json"] [str "r"] [(str "k", Json.null)] (by decide)

/-! ## Claim C8 -/

/-- C8: a fixture path that is not a descendant of its fixture root makes
the compiler raise (uncaught `ValueError` from `Path.relative_to`); the
failure aborts the whole per-source run and is not absorbed into a
zero-unit skip. -/
theorem C8_fatal (p root : FPath) (kvs : List (Str × Json))
    (h : root.isPrefixOf p = false) :
    generate_test_file_spec p root (FileContent.parsed (Json.obj kvs)) =
      Except.error CompileErr.notDescendant ∧
    (∀ rest : List (FPath × FileContent),
      runAllSpec root ((p, FileContent.parsed (Json.obj kvs)) :: rest) =
        Except.error CompileErr.notDescendant) ∧
    (∀ out : CompileOut,
      generate_test_file_spec p root (FileContent.parsed (Json.obj kvs)) ≠ Except.ok out) := by
  have hmain : generate_test_file_spec p root (FileContent.parsed (Json.obj kvs)) =
      Except.error CompileErr.notDescendant := by
    simp [generate_test_file_spec, relative_to, h]
  refine ⟨hmain, ?_, ?_⟩
  · intro rest
    simp [runAllSpec, hmain]
  · intro out hcontra
    rw [hmain] at hcontra
    exact Except.noConfusion hcontra

/-- C8 witness: a concrete path outside the fixture root is fatal. -/
theorem C8_fatal_witness :
    generate_test_file_spec [str "elsewhere", str "x.json"] [str "fixtures"]
      (FileContent.parsed (Json.obj [])) = Except.error CompileErr.notDescendant :=
  (C8_fatal [str "elsewhere", str "x.json"] [str "fixtures"] [] (by decide)).1

/-! ## Result Analyzer (`analyze_test_results.py`)

The analyzer scans the log for the regex
`test\.([^\s]+)\.\.\.(?:OK|FAIL)` via `re.finditer`, takes
`match.group(0).split('...')[-1]` as the status, and groups by
`extract_category` (the second dot-delimited segment of the captured
name, `unknown` when it has fewer than two segments). -/

/-- Python's `\s` on the ASCII range. -/
def isPySpace (c : Char) : Bool :=
  c = ' ' || c = '\t' || c = '\n' || c = '\x0b' || c = '\x0c' || c = '\r'

/-- `test_name.split('.')` (or any single-character separator). -/
def splitChar (sep : Char) : Str → List Str
  | [] => [[]]
  | c :: rest =>
    if c = sep then [] :: splitChar sep rest
    else
      match splitChar sep rest with
      | [] => [[c]]
      | h :: t => (c :: h) :: t

/-- Joining segments with a separator (inverse of `splitChar` on
separator-free segments). -/
def joinSep (sep : Char) : List Str → Str
  | [] => []
  | [s] => s
  | s :: rest => s ++ sep :: joinSep sep rest

/-- `group(0).split('...')`: split on non-overlapping occurrences of
three dots, left to right. -/
def splitDots3Aux : Str → Str → List Str
  | '.' :: '.' :: '.' :: rest, acc => acc.reverse :: splitDots3Aux rest []
  | c :: rest, acc => splitDots3Aux rest (c :: acc)
  | [], acc => [acc.reverse]

def splitDots3 (s : Str) : List Str := splitDots3Aux s []

/-- `extract_category` from `analyze_test_results.py`. -/
def extract_category (test_name : Str) : Str :=
  let parts := splitChar '.' test_name
  if 2 ≤ parts.length then parts.getD 1 [] else str "unknown"

/-- The greedy backtracking of `[^\s]+`: the largest prefix length `j`
(at most the non-whitespace run, at least 1) such that the literal
`...OK` or `...FAIL` starts right after it.  Returns the length and the
status token. -/
def findGreedy (t : Str) : Nat → Option (Nat × Str)
  | 0 => none
  | j + 1 =>
    if (str "...OK").isPrefixOf (t.drop (j + 1)) then some (j + 1, str "OK")
    else if (str "...FAIL").isPrefixOf (t.drop (j + 1)) then some (j + 1, str "FAIL")
    else findGreedy t j

/-- One attempt of the regex at the current position: on success returns
the captured name (`group(1)`), the status computed as
`group(0).split('...')[-1]`, and the remaining input after the match. -/
def matchAt (s : Str) : Option (Str × Str × Str) :=
  if (str "test.").isPrefixOf s then
    let t := s.drop 5
    let run := t.takeWhile (fun c => !(isPySpace c))
    match findGreedy t run.length with
    | some (j, tok) =>
      let name := t.take j
      let g0 := str "test." ++ name ++ str "..." ++ tok
      some (name, (splitDots3 g0).getLastD [], t.drop (j + 3 + tok.length))
    | none => none
  else none

/-- `re.finditer`: leftmost matches, resuming after each match's end;
fuel covers the input length since every step consumes a character. -/
def scanMatches : Nat → Str → List (Str × Str)
  | 0, _ => []
  | fuel + 1, s =>
    match matchAt s with
    | some (name, status, rest) => (name, status) :: scanMatches fuel rest
    | none =>
      match s with
      | [] => []
      | _ :: tail => scanMatches fuel tail

/-- `categories[category]['passed'] += 1` on the insertion-ordered dict. -/
def bumpP : List (Str × Nat × Nat) → Str → List (Str × Nat × Nat)
  | [], cat => [(cat, 1, 0)]
  | (k, pcnt, fcnt) :: rest, cat =>
    if k = cat then (k, pcnt + 1, fcnt) :: rest else (k, pcnt, fcnt) :: bumpP rest cat

/-- `categories[category]['failed'] += 1`. -/
def bumpF : List (Str × Nat × Nat) → Str → List (Str × Nat × Nat)
  | [], cat => [(cat, 0, 1)]
  | (k, pcnt, fcnt) :: rest, cat =>
    if k = cat then (k, pcnt, fcnt + 1) :: rest else (k, pcnt, fcnt) :: bumpF rest cat

/-- The summary `analyze_test_results` builds before printing. -/
structure Summary where
  total : Nat
  passedCount : Nat
  failedCount : Nat
  categories : List (Str × Nat × Nat)
deriving DecidableEq

/-- `analyze_test_results` on the log text: collect matches, split them
on `status == 'OK'`, then accumulate per-category counts (all passed
tests first, then all failed ones, as in the source's two loops). -/
def analyze (content : Str) : Summary :=
  let ms := scanMatches (content.length + 1) content
  let passed := (ms.filter (fun m => decide (m.2 = str "OK"))).map Prod.fst
  let failed := (ms.filter (fun m => !(decide (m.2 = str "OK")))).map Prod.fst
  let cats1 := passed.foldl (fun acc t => bumpP acc (extract_category t)) []
  let cats2 := failed.foldl (fun acc t => bumpF acc (extract_category t)) cats1
  ⟨passed.length + failed.length, passed.length, failed.length, cats2⟩

/-- The two-line log of the spec's Scenario D. -/
def scenarioLog : Str := str "test.stExample.test_add...OK\ntest.stExample.test_sub...FAIL"

example : scanMatches (scenarioLog.length + 1) scenarioLog =
    [(str "stExample.test_add", str "OK"), (str "stExample.test_sub", str "FAIL")] := by
  decide

/-! ### Split/join lemmas and Claim C2 -/

theorem splitChar_no_sep {a : Str} (h : '.' ∉ a) : splitChar '.' a = [a] := by
  induction a with
  | nil => rfl
  | cons c rest ih =>
    have hc : ¬ (c = '.') := fun hc => h (by simp [hc])
    have hrest : '.' ∉ rest := fun hr => h (List.mem_cons_of_mem _ hr)
    simp only [splitChar, hc, if_false, ih hrest]

theorem splitChar_append_sep {a : Str} (h : '.' ∉ a) (rest : Str) :
    splitChar '.' (a ++ '.' :: rest) = a :: splitChar '.' rest := by
  induction a with
  | nil => simp [splitChar]
  | cons c as ih =>
    have hc : ¬ (c = '.') := fun hc => h (by simp [hc])
    have has : '.' ∉ as := fun hr => h (List.mem_cons_of_mem _ hr)
    simp only [List.cons_append, splitChar, hc, if_false, List.append_eq, ih has]

theorem splitChar_joinSep : ∀ segs : List Str, segs ≠ [] → (∀ s ∈ segs, '.' ∉ s) →
    splitChar '.' (joinSep '.' segs) = segs := by
  intro segs
  induction segs with
  | nil => intro h _; exact absurd rfl h
  | cons a rest ih =>
    intro _ hsep
    cases rest with
    | nil => exact splitChar_no_sep (hsep a (List.mem_cons_self _ _))
    | cons b tail =>
      show splitChar '.' (a ++ '.' :: joinSep '.' (b :: tail)) = a :: b :: tail
      rw [splitChar_append_sep (hsep a (List.mem_cons_self _ _)),
        ih (by simp) (fun s hs => hsep s (List.mem_cons_of_mem _ hs))]

/-- C2 counterexample: on the log of Scenario D the analyzer's captured
test names are `stExample.test_add` and `stExample.test_sub` (the regex
strips the literal `test.` prefix), so the categories are `test_add` and
`test_sub` — no `stExample` category with passed=1 and failed=1 exists. -/
theorem C2_counterexample :
    (analyze scenarioLog).categories =
      [(str "test_add", 1, 0), (str "test_sub", 0, 1)] ∧
    str "stExample" ∉ ((analyze scenarioLog).categories.map Prod.fst) := by
  constructor
  · decide
  · decide

/-- C2 amended: for every matched line the category is the second
dot-delimited segment of the captured test name (fewer than two segments
give `unknown`); Scenario D's log yields passed=1, failed=1, total=2 and
overall pass rate 50.0%, but its categories are `test_add` (1 passed)
and `test_sub` (1 failed) rather than one `stExample` category, because
the captured name excludes the literal `test.` prefix. -/
theorem C2_amended :
    (∀ (a b : Str) (rest : List Str), '.' ∉ a → '.' ∉ b → (∀ s ∈ rest, '.' ∉ s) →
      extract_category (joinSep '.' (a :: b :: rest)) = b) ∧
    (∀ a : Str, '.' ∉ a → extract_category a = str "unknown") ∧
    (analyze scenarioLog).total = 2 ∧
    (analyze scenarioLog).passedCount = 1 ∧
    (analyze scenarioLog).failedCount = 1 ∧
    (analyze scenarioLog).categories =
      [(str "test_add", 1, 0), (str "test_sub", 0, 1)] ∧
    (100 * ((analyze scenarioLog).passedCount : ℚ)) / ((analyze scenarioLog).total : ℚ) = 50 := by
  refine ⟨?_, ?_, by decide, by decide, by decide, by decide, ?_⟩
  · intro a b rest ha hb hrest
    have hsplit : splitChar '.' (joinSep '.' (a :: b :: rest)) = a :: b :: rest := by
      apply splitChar_joinSep
      · simp
      · intro s hs
        rcases List.mem_cons.mp hs with rfl | hs'
        · exact ha
        · rcases List.mem_cons.mp hs' with rfl | hs''
          · exact hb
          · exact hrest s hs''
    simp [extract_category, hsplit]
  · intro a ha
    simp [extract_category, splitChar_no_sep ha]
  · have hp : (analyze scenarioLog).passedCount = 1 := by decide
    have ht : (analyze scenarioLog).total = 2 := by decide
    rw [hp, ht]
    norm_num

/-- C2 witness: a three-segment dot-free name gets its second segment as
category. -/
theorem C2_amended_witness :
    extract_category (joinSep '.' [str "eth", str "stX", str "add"]) = str "stX" :=
  C2_amended.1 (str "eth") (str "stX") [str "add"] (by decide) (by decide)
    (by intro s hs; simp only [List.mem_singleton] at hs; subst hs; decide)

/-! ## Source Scanner

A directory tree is embedded by the list of relative segment paths of
the files beneath it (`TreeF`); `rglob("*.json")` keeps the files whose
final segment ends in `.json`, in traversal order.  An existing but
empty directory is `some []`, an absent one is `none`. -/

abbrev TreeF := List FPath

/-- Does the file name match the glob `*.json`? -/
def isJsonName (s : Str) : Bool := endsWithS (str ".json") s

/-- `root.rglob("*.json")` over the tree below a root. -/
def rglobJson (t : TreeF) : List FPath := t.filter (fun p => isJsonName (p.getLastD []))

/-- The reserved metadata marker segment. -/
def metaStr : Str := str ".meta"

/-- `[f for f in specs_root.rglob("*.json") if ".meta" not in f.parts]`
from `generate_spec_tests.main`. -/
def scanSpecJsonFiles (t : TreeF) : List FPath :=
  (rglobJson t).filter (fun p => !(decide (metaStr ∈ p)))

/-- `scan_test_directory` from `generate_tests.py`: every
`rglob("*.json")` hit is returned (as its path relative to the repo
root); both branches of its `if` compute the same `relative_to`, and
no `.meta` filter is applied. -/
def scan_test_directory (baseRel : FPath) (t : TreeF) : List FPath :=
  (rglobJson t).map (fun p => baseRel ++ p)

/-- C6 counterexample: a fixture tree whose only JSON file sits inside a
`.meta` directory.  The single-source scanner excludes it but the
multi-source scanner of `generate_tests.py` returns it, so the claimed
exclusion does not apply in both generation paths. -/
theorem C6_counterexample :
    scanSpecJsonFiles [[metaStr, str "x.json"]] = [] ∧
    scan_test_directory [] [[metaStr, str "x.json"]] = [[metaStr, str "x.json"]] ∧
    metaStr ∈ [metaStr, str "x.json"] := by
  refine ⟨by decide, by decide, by decide⟩

/-- C6 amended: the single-source path (`generate_spec_tests.py`)
compiles exactly the JSON files recursively under the root whose paths
avoid the `.meta` marker segment, while the multi-source path
(`generate_tests.py`) compiles every JSON file recursively under the
root with no `.meta` exclusion. -/
theorem C6_amended :
    (∀ (t : TreeF) (p : FPath), p ∈ scanSpecJsonFiles t ↔
      p ∈ t ∧ isJsonName (p.getLastD []) = true ∧ metaStr ∉ p) ∧
    (∀ (baseRel : FPath) (t : TreeF) (p : FPath), p ∈ scan_test_directory baseRel t ↔
      ∃ q, (q ∈ t ∧ isJsonName (q.getLastD []) = true) ∧ baseRel ++ q = p) := by
  constructor
  · intro t p
    simp only [scanSpecJsonFiles, rglobJson, List.mem_filter, Bool.not_eq_true',
      decide_eq_false_iff_not]
    tauto
  · intro baseRel t p
    simp [scan_test_directory, rglobJson, List.mem_filter, List.mem_map]

/-! ## Fixture Acquirer

`ensure_general_state_tests` (general-state) and
`ensure_blockchain_fixtures` (blockchain).  The filesystem slice each
touches is embedded as a record of optional trees; `symlink` and
`copytree` are both modeled as the canonical path acquiring the legacy
tree's content (the canonical path then resolves to the same files
either way); the archive is modeled by its relevant top-level members.
`rmtree` is the only destructive operation and is reported in the
returned flag of the blockchain acquirer. -/

/-- The relevant slice for `ensure_general_state_tests`:
`ethereum-tests/GeneralStateTests` and, when the `.tgz` archive exists,
the content of its `GeneralStateTests` top-level member (if any). -/
structure GFS where
  fixturesDir : Option TreeF
  archiveMember : Option (Option TreeF)
deriving DecidableEq

/-- `ensure_general_state_tests`: return at once when the canonical
directory exists; otherwise extract the archive when present. -/
def ensure_general_state_tests (fs : GFS) : GFS :=
  if fs.fixturesDir.isSome then fs
  else
    match fs.archiveMember with
    | none => fs
    | some m =>
      match m with
      | some t => { fs with fixturesDir := some t }
      | none => fs

/-- Top-level members of `fixtures_blockchain_tests.tgz` that matter:
a `BlockchainTests` directory and a directory with the canonical name. -/
structure TarContent where
  memberUpper : Option TreeF
  memberCanonical : Option TreeF
deriving DecidableEq

/-- The slice for `ensure_blockchain_fixtures`: the canonical
`blockchain_tests` path, the sibling `BlockchainTests` left by an
extraction, the legacy `ethereum-tests/BlockchainTests` tree, and the
archive. -/
structure BFS where
  specsRoot : Option TreeF
  extractedDir : Option TreeF
  legacy : Option TreeF
  tar : Option TarContent
deriving DecidableEq

/-- `path.exists() and any(path.rglob("*.json"))`. -/
def existsAndHasJson : Option TreeF → Bool
  | some t => !(rglobJson t).isEmpty
  | none => false

/-- `tar.extractall(specs_root.parent)` followed by the conditional
rename of the extracted `BlockchainTests` onto the canonical path. -/
def extractTar (fs1 : BFS) (t : TarContent) : BFS :=
  let fs2 : BFS := { fs1 with
    extractedDir := t.memberUpper.orElse (fun _ => fs1.extractedDir),
    specsRoot := t.memberCanonical }
  if fs2.extractedDir.isSome && !fs2.specsRoot.isSome then
    { fs2 with specsRoot := fs2.extractedDir, extractedDir := none }
  else fs2

/-- Fallback tiers after the initial check: legacy symlink/copy, then
archive extraction, else a warning; `destr` records whether the initial
`rmtree` ran. -/
def ensureBTiers (fs1 : BFS) (destr : Bool) : BFS × Bool :=
  if existsAndHasJson fs1.legacy then ({ fs1 with specsRoot := fs1.legacy }, destr)
  else
    match fs1.tar with
    | some t => (extractTar fs1 t, destr)
    | none => (fs1, destr)

/-- `ensure_blockchain_fixtures`: no-op when the canonical path exists
with a JSON file; otherwise `rmtree` any existing canonical path and run
the fallback tiers. -/
def ensure_blockchain_fixtures (fs : BFS) : BFS × Bool :=
  if existsAndHasJson fs.specsRoot then (fs, false)
  else ensureBTiers { fs with specsRoot := none } fs.specsRoot.isSome

theorem ensureG_id {fs : GFS} (h : fs.fixturesDir.isSome = true) :
    ensure_general_state_tests fs = fs := by
  simp [ensure_general_state_tests, h]

/-! ## Claims C5, C9, C10 -/

/-- C5: whenever the canonical path exists and holds at least one
fixture file recursively, `ensure` is a no-op that returns immediately,
and calling it twice yields the same final state with no destructive
action (blockchain acquirer) respectively no state change (general-state
acquirer, which performs no destructive operation at all) on the second
call. -/
theorem C5_ensure_idempotent :
    (∀ fs : BFS, existsAndHasJson fs.specsRoot = true →
      ensure_blockchain_fixtures fs = (fs, false) ∧
      ensure_blockchain_fixtures (ensure_blockchain_fixtures fs).1 =
        ((ensure_blockchain_fixtures fs).1, false)) ∧
    (∀ fs : GFS, existsAndHasJson fs.fixturesDir = true →
      ensure_general_state_tests fs = fs ∧
      ensure_general_state_tests (ensure_general_state_tests fs) =
        ensure_general_state_tests fs) := by
  constructor
  · intro fs h
    have h1 : ensure_blockchain_fixtures fs = (fs, false) := by
      simp [ensure_blockchain_fixtures, h]
    refine ⟨h1, ?_⟩
    rw [h1]
    exact h1
  · intro fs h
    have hsome : fs.fixturesDir.isSome = true := by
      cases hfd : fs.fixturesDir with
      | none => rw [hfd] at h; simp [existsAndHasJson] at h
      | some t => rfl
    have h1 : ensure_general_state_tests fs = fs := ensureG_id hsome
    refine ⟨h1, ?_⟩
    rw [h1]
    exact h1

/-- C5 witness: a populated canonical path makes both acquirers no-ops. -/
theorem C5_ensure_idempotent_witness :
    ensure_blockchain_fixtures ⟨some [[str "a.json"]], none, none, none⟩ =
      (⟨some [[str "a.json"]], none, none, none⟩, false) ∧
    ensure_general_state_tests ⟨some [[str "a.json"]], none⟩ =
      ⟨some [[str "a.json"]], none⟩ :=
  ⟨(C5_ensure_idempotent.1 ⟨some [[str "a.json"]], none, none, none⟩ (by decide)).1,
   (C5_ensure_idempotent.2 ⟨some [[str "a.json"]], none⟩ (by decide)).1⟩

/-- C9: the general-state acquirer returns unchanged whenever the
canonical directory merely exists — even when empty and even though a
populated archive is present — and repeating the call never acquires
anything; only when the directory is absent does the archive get
extracted. -/
theorem C9_exists_blocks :
    (∀ fs : GFS, fs.fixturesDir.isSome = true → ensure_general_state_tests fs = fs) ∧
    (∀ fs : GFS, fs.fixturesDir.isSome = true →
      ∀ n : Nat, Nat.iterate ensure_general_state_tests n fs = fs) ∧
    (∀ t : TreeF, ensure_general_state_tests ⟨none, some (some t)⟩ =
      ⟨some t, some (some t)⟩) := by
  refine ⟨fun fs h => ensureG_id h, ?_, fun t => rfl⟩
  intro fs h n
  induction n with
  | zero => rfl
  | succ n ih =>
    rw [Function.iterate_succ_apply, ensureG_id h, ih]

/-- C9 witness: an existing empty directory blocks acquisition from a
populated archive. -/
theorem C9_exists_blocks_witness :
    ensure_general_state_tests ⟨some [], some (some [[str "a.json"]])⟩ =
      ⟨some [], some (some [[str "a.json"]])⟩ :=
  C9_exists_blocks.1 ⟨some [], some (some [[str "a.json"]])⟩ (by decide)

